import Mathlib

/-!
Verification of the CarbonReady ESP32 telemetry-delivery core against its
design specification. The firmware sources under `src/firmware/esp32/` are
embedded shallowly: Arduino `String` values become `List Char`, `float`
sensor values become `ℚ` (every operation the firmware performs on them —
comparison, clamping, two-decimal formatting — is exact on the rationals the
claims exercise), the SPIFFS-backed storage file becomes an
`Option (List Char)` (`none` = the file does not exist), and the MQTT
publish/connect primitives become boolean oracles supplied to the retry
loop. SHA-256 is implemented in full (FIPS 180-4) over byte lists, mirroring
the mbedtls calls in `data_processor.cpp`.
-/

namespace CarbonReady

/-- Character list of a string literal; Arduino `String` is modelled as the
sequence of its characters. -/
def str (s : String) : List Char := s.data

/-! ## Configuration constants from `config.h` -/

/-- RETRY_DELAY_BASE_MS from config.h. -/
def RETRY_DELAY_BASE_MS : Nat := 2000

/-- MAX_RETRIES from config.h. -/
def MAX_RETRIES : Nat := 3

/-- MAX_OFFLINE_READINGS from config.h. -/
def MAX_OFFLINE_READINGS : Nat := 100

/-- SOIL_MOISTURE_DRY from config.h (ADC value for dry soil). -/
def SOIL_MOISTURE_DRY : Int := 3200

/-- SOIL_MOISTURE_WET from config.h (ADC value for wet soil). -/
def SOIL_MOISTURE_WET : Int := 1200

/-! ## Data model: `SensorReadings` from `sensor_manager.h` -/

/-- SensorReadings structure: four measured channels, acquisition timestamp
(epoch seconds, `unsigned long`), validity flag. -/
structure SensorReadings where
  soilMoisture : ℚ
  soilTemperature : ℚ
  airTemperature : ℚ
  humidity : ℚ
  timestamp : Nat
  valid : Bool
deriving Repr, DecidableEq

/-! ## DataProcessor: formatting helpers (`data_processor.cpp`) -/

/-- Decimal digits of a natural number, as characters. -/
def natDigits (n : Nat) : List Char := (Nat.repr n).data

/-- Two-digit zero-padded decimal field, as `strftime` produces for
`%m %d %H %M %S`. -/
def pad2 (n : Nat) : List Char :=
  if n < 10 then '0' :: natDigits n else natDigits n

/-- Civil date (year, month, day) of a number of days since 1970-01-01,
proleptic Gregorian — the conversion `gmtime` performs for non-negative
epochs. -/
def civilFromDays (days : Nat) : Nat × Nat × Nat :=
  let z := days + 719468
  let era := z / 146097
  let doe := z % 146097
  let yoe := (doe - doe / 1460 + doe / 36524 - doe / 146097) / 365
  let y := yoe + era * 400
  let doy := doe - (365 * yoe + yoe / 4 - yoe / 100)
  let mp := (5 * doy + 2) / 153
  let d := doy - (153 * mp + 2) / 5 + 1
  let m := if mp < 10 then mp + 3 else mp - 9
  (if m ≤ 2 then y + 1 else y, m, d)

/-- DataProcessor::formatISO8601 — `gmtime` plus
`strftime "%Y-%m-%dT%H:%M:%SZ"` on a non-negative epoch timestamp. -/
def formatISO8601 (timestamp : Nat) : List Char :=
  let days := timestamp / 86400
  let secs := timestamp % 86400
  let ymd := civilFromDays days
  natDigits ymd.1 ++ '-' :: pad2 ymd.2.1 ++ '-' :: pad2 ymd.2.2
    ++ 'T' :: pad2 (secs / 3600) ++ ':' :: pad2 (secs % 3600 / 60)
    ++ ':' :: pad2 (secs % 60) ++ ['Z']

/-- DataProcessor::formatFloat — `snprintf "%.2f"`: the value rounded to two
fractional digits (exact for the centesimal rationals the firmware's claims
exercise, where no rounding occurs). -/
def formatFloat (value : ℚ) : List Char :=
  let n : Int := ⌊value * 100 + 1 / 2⌋
  let sign : List Char := if n < 0 then ['-'] else []
  let a := n.natAbs
  sign ++ natDigits (a / 100) ++ '.' :: pad2 (a % 100)

/-- Lowercase hex digit, as `sprintf "%02x"` emits. -/
def hexDigit (n : Nat) : Char :=
  if n < 10 then Char.ofNat (48 + n) else Char.ofNat (87 + n)

/-- Lowercase hex string of a byte list (two digits per byte). -/
def hexOfBytes (bs : List Nat) : List Char :=
  bs.flatMap (fun b => [hexDigit (b / 16), hexDigit (b % 16)])

/-- UTF-8 encoding of one character, the byte sequence `payload.c_str()`
exposes. -/
def utf8EncodeChar (c : Char) : List Nat :=
  let n := c.toNat
  if n < 128 then [n]
  else if n < 2048 then [192 + n / 64, 128 + n % 64]
  else if n < 65536 then [224 + n / 4096, 128 + n / 64 % 64, 128 + n % 64]
  else [240 + n / 262144, 128 + n / 4096 % 64, 128 + n / 64 % 64, 128 + n % 64]

/-- Byte sequence of a character list (UTF-8, as `String::c_str`). -/
def utf8Bytes (cs : List Char) : List Nat := cs.flatMap utf8EncodeChar

/-- JSON string escaping applied by ArduinoJson `serializeJson` to embedded
string values. -/
def jsonEscapeChar (c : Char) : List Char :=
  if c = '"' then ['\\', '"']
  else if c = '\\' then ['\\', '\\']
  else if c = '\x08' then ['\\', 'b']
  else if c = '\x0c' then ['\\', 'f']
  else if c = '\n' then ['\\', 'n']
  else if c = '\r' then ['\\', 'r']
  else if c = '\t' then ['\\', 't']
  else if c.toNat < 32 then
    ['\\', 'u', '0', '0', hexDigit (c.toNat / 16), hexDigit (c.toNat % 16)]
  else [c]

/-- JSON string escaping over a whole string value. -/
def jsonEscape (cs : List Char) : List Char := cs.flatMap jsonEscapeChar

/-! ## SHA-256 (FIPS 180-4), the function mbedtls computes in
`DataProcessor::computeSHA256Hash`. Words are `Nat` reduced mod `2^32`. -/

/-- Word size modulus. -/
def w32 : Nat := 4294967296

/-- Right rotation of a 32-bit word. -/
def rotr32 (n x : Nat) : Nat := (x / 2 ^ n + x % 2 ^ n * 2 ^ (32 - n)) % w32

/-- Bitwise XOR reduced to 32 bits. -/
def xor32 (a b : Nat) : Nat := (a ^^^ b) % w32

/-- SHA-256 big sigma 0. -/
def bsig0 (x : Nat) : Nat := xor32 (xor32 (rotr32 2 x) (rotr32 13 x)) (rotr32 22 x)

/-- SHA-256 big sigma 1. -/
def bsig1 (x : Nat) : Nat := xor32 (xor32 (rotr32 6 x) (rotr32 11 x)) (rotr32 25 x)

/-- SHA-256 small sigma 0. -/
def ssig0 (x : Nat) : Nat := xor32 (xor32 (rotr32 7 x) (rotr32 18 x)) (x / 2 ^ 3)

/-- SHA-256 small sigma 1. -/
def ssig1 (x : Nat) : Nat := xor32 (xor32 (rotr32 17 x) (rotr32 19 x)) (x / 2 ^ 10)

/-- SHA-256 choice function. -/
def shaCh (x y z : Nat) : Nat := xor32 (x &&& y) ((x ^^^ (w32 - 1)) &&& z)

/-- SHA-256 majority function. -/
def shaMaj (x y z : Nat) : Nat := xor32 (xor32 (x &&& y) (x &&& z)) (y &&& z)

/-- Round constants K of FIPS 180-4 (fractional cube roots of the first 64
primes), written in decimal. -/
def shaK : List Nat :=
  [1116352408, 1899447441, 3049323471, 3921009573,
   961987163, 1508970993, 2453635748, 2870763221,
   3624381080, 310598401, 607225278, 1426881987,
   1925078388, 2162078206, 2614888103, 3248222580,
   3835390401, 4022224774, 264347078, 604807628,
   770255983, 1249150122, 1555081692, 1996064986,
   2554220882, 2821834349, 2952996808, 3210313671,
   3336571891, 3584528711, 113926993, 338241895,
   666307205, 773529912, 1294757372, 1396182291,
   1695183700, 1986661051, 2177026350, 2456956037,
   2730485921, 2820302411, 3259730800, 3345764771,
   3516065817, 3600352804, 4094571909, 275423344,
   430227734, 506948616, 659060556, 883997877,
   958139571, 1322822218, 1537002063, 1747873779,
   1955562222, 2024104815, 2227730452, 2361852424,
   2428436474, 2756734187, 3204031479, 3329325298]

/-- Intermediate hash state: eight working words. -/
structure Sha256State where
  a : Nat
  b : Nat
  c : Nat
  d : Nat
  e : Nat
  f : Nat
  g : Nat
  h : Nat
deriving Repr, DecidableEq

/-- Initial hash value H0 of FIPS 180-4, written in decimal. -/
def shaInit : Sha256State :=
  ⟨1779033703, 3144134277, 1013904242, 2773480762,
   1359893119, 2600822924, 528734635, 1541459225⟩

/-- Big-endian bytes of a 32-bit word. -/
def be32 (x : Nat) : List Nat := [x / 16777216 % 256, x / 65536 % 256, x / 256 % 256, x % 256]

/-- Big-endian bytes of the 64-bit message bit length. -/
def be64 (x : Nat) : List Nat :=
  [x / 2 ^ 56 % 256, x / 2 ^ 48 % 256, x / 2 ^ 40 % 256, x / 2 ^ 32 % 256,
   x / 2 ^ 24 % 256, x / 2 ^ 16 % 256, x / 2 ^ 8 % 256, x % 256]

/-- SHA-256 message padding: 0x80, zeros to 56 mod 64, 8-byte bit length. -/
def shaPad (msg : List Nat) : List Nat :=
  msg ++ 128 :: List.replicate ((119 - msg.length % 64) % 64) 0 ++ be64 (8 * msg.length)

/-- Big-endian 32-bit words of a byte list, four bytes per word. -/
def wordsOfBytes : List Nat → List Nat
  | b0 :: b1 :: b2 :: b3 :: rest => (b0 * 16777216 + b1 * 65536 + b2 * 256 + b3) :: wordsOfBytes rest
  | _ => []

/-- Message-schedule extension: grow the 16 chunk words to 64. -/
def extendW (ws : List Nat) : List Nat :=
  if h : ws.length < 16 ∨ 64 ≤ ws.length then ws
  else
    extendW (ws ++ [(ssig1 ws[ws.length - 2]! + ws[ws.length - 7]!
      + ssig0 ws[ws.length - 15]! + ws[ws.length - 16]!) % w32])
termination_by 64 - ws.length
decreasing_by simp at h; simp [List.length_append]; omega

/-- One SHA-256 round with schedule word `wi` and constant `ki`. -/
def shaRound (st : Sha256State) (kw : Nat × Nat) : Sha256State :=
  let t1 := (st.h + bsig1 st.e + shaCh st.e st.f st.g + kw.1 + kw.2) % w32
  let t2 := (bsig0 st.a + shaMaj st.a st.b st.c) % w32
  ⟨(t1 + t2) % w32, st.a, st.b, st.c, (st.d + t1) % w32, st.e, st.f, st.g⟩

/-- Compress one 64-byte chunk into the running hash state. -/
def compressChunk (st : Sha256State) (chunk : List Nat) : Sha256State :=
  let ws := extendW (wordsOfBytes chunk)
  let r := (shaK.zip ws).foldl shaRound st
  ⟨(st.a + r.a) % w32, (st.b + r.b) % w32, (st.c + r.c) % w32, (st.d + r.d) % w32,
   (st.e + r.e) % w32, (st.f + r.f) % w32, (st.g + r.g) % w32, (st.h + r.h) % w32⟩

/-- Split a byte list into 64-byte chunks. -/
def chunks64 (bs : List Nat) : List (List Nat) :=
  if h : bs = [] then []
  else bs.take 64 :: chunks64 (bs.drop 64)
termination_by bs.length
decreasing_by
  simp [List.length_drop]
  have hp : 0 < bs.length := List.length_pos.mpr h
  omega

/-- SHA-256 digest (32 bytes) of a byte list. -/
def sha256 (msg : List Nat) : List Nat :=
  let st := (chunks64 (shaPad msg)).foldl compressChunk shaInit
  be32 st.a ++ be32 st.b ++ be32 st.c ++ be32 st.d
    ++ be32 st.e ++ be32 st.f ++ be32 st.g ++ be32 st.h

/-! ## DataProcessor: payload and message (`data_processor.cpp`) -/

/-- DataProcessor::createPayload — ArduinoJson document serialized with its
stable insertion order farmId, deviceId, timestamp, readings{soilMoisture,
soilTemperature, airTemperature, humidity}. Identifier strings pass through
`serializeJson` escaping; the formatted numeric and timestamp strings contain
only characters `serializeJson` emits unchanged. -/
def createPayload (readings : SensorReadings) (farmId deviceId : List Char) : List Char :=
  str "\x7b\"farmId\":\"" ++ jsonEscape farmId
    ++ str "\",\"deviceId\":\"" ++ jsonEscape deviceId
    ++ str "\",\"timestamp\":\"" ++ formatISO8601 readings.timestamp
    ++ str "\",\"readings\":\x7b\"soilMoisture\":\"" ++ formatFloat readings.soilMoisture
    ++ str "\",\"soilTemperature\":\"" ++ formatFloat readings.soilTemperature
    ++ str "\",\"airTemperature\":\"" ++ formatFloat readings.airTemperature
    ++ str "\",\"humidity\":\"" ++ formatFloat readings.humidity
    ++ str "\"\x7d\x7d"

/-- DataProcessor::computeSHA256Hash — mbedtls SHA-256 over the payload's
`c_str()` bytes, rendered as lowercase hex. -/
def computeSHA256Hash (payload : List Char) : List Char :=
  hexOfBytes (sha256 (utf8Bytes payload))

/-- DataProcessor::createMessage — hash the bare payload, then re-parse it and
append the `hash` member. ArduinoJson round-trips its own serialization
unchanged and appends the newly inserted key last, so the step rewrites the
closing brace to `,"hash":"<digest>"}`. -/
def createMessage (readings : SensorReadings) (farmId deviceId : List Char) : List Char :=
  let payload := createPayload readings farmId deviceId
  let hash := computeSHA256Hash payload
  payload.dropLast ++ str ",\"hash\":\"" ++ hash ++ str "\"\x7d"

/-- Downstream verifier for a produced message: split off the trailing
`,"hash":"<64 hex>"}`, reconstruct the bare payload by restoring the closing
brace, and recompute the digest over it. -/
def verifyMessage (msg : List Char) : Bool :=
  if msg.length < 75 then false
  else
    let tail := msg.drop (msg.length - 75)
    let payload := msg.take (msg.length - 75) ++ ['\x7d']
    if tail.take 9 = str ",\"hash\":\"" ∧ tail.drop 73 = str "\"\x7d"
        ∧ computeSHA256Hash payload = (tail.drop 9).take 64 then
      true
    else false

/-! ## LocalStorage (`local_storage.cpp`): a SPIFFS file of CR-LF lines.
The backing file is `Option (List Char)`; `none` means `STORAGE_FILE` does
not exist. -/

/-- Whitespace predicate of `isspace`, the characters `String::trim`
removes. -/
def isWS (c : Char) : Bool :=
  c = ' ' ∨ c = '\t' ∨ c = '\n' ∨ c = '\x0b' ∨ c = '\x0c' ∨ c = '\r'

/-- Arduino `String::trim`: strip leading and trailing `isspace`
characters. -/
def trimChars (cs : List Char) : List Char :=
  ((cs.dropWhile isWS).reverse.dropWhile isWS).reverse

/-- Reading loop of LocalStorage::readLines over raw file content: repeat
`readStringUntil('\n')` (the chunk before the next newline, newline
consumed), `trim`, keep when nonempty — consuming the stream one character
at a time: `acc` holds the current chunk, most recent character first. -/
def parseLinesAux (acc : List Char) : List Char → List (List Char)
  | [] => if trimChars acc.reverse = [] then [] else [trimChars acc.reverse]
  | c :: cs =>
    if c = '\n' then
      if trimChars acc.reverse = [] then parseLinesAux [] cs
      else trimChars acc.reverse :: parseLinesAux [] cs
    else parseLinesAux (c :: acc) cs

/-- The whole reading loop, starting with an empty chunk accumulator. -/
def parseLines (cs : List Char) : List (List Char) := parseLinesAux [] cs

/-- LocalStorage state: the storage file (if present) and the `maxReadings`
member, set to MAX_OFFLINE_READINGS by the constructor. -/
structure LocalStorage where
  file : Option (List Char)
  maxReadings : Nat
deriving Repr, DecidableEq

/-- LocalStorage constructor plus fresh SPIFFS: no storage file yet. -/
def LocalStorage.init : LocalStorage := ⟨none, MAX_OFFLINE_READINGS⟩

/-- LocalStorage::readLines — empty when the file is absent, otherwise the
trimmed nonempty lines of its content. -/
def readLines (st : LocalStorage) : List (List Char) :=
  match st.file with
  | none => []
  | some cs => parseLines cs

/-- LocalStorage::writeLines serialization — `file.println(line)` writes each
line followed by CR LF into a freshly truncated file. -/
def writeLines (lines : List (List Char)) : List Char :=
  lines.flatMap (fun l => l ++ ['\r', '\n'])

/-- LocalStorage::getStoredCount. -/
def getStoredCount (st : LocalStorage) : Nat := (readLines st).length

/-- LocalStorage::isFull. -/
def isFull (st : LocalStorage) : Bool := st.maxReadings ≤ getStoredCount st

/-- LocalStorage::storeReading — reject when full; otherwise read the existing
lines, append the message, and rewrite the whole file. Returns the success
flag and the new state. -/
def storeReading (st : LocalStorage) (message : List Char) : Bool × LocalStorage :=
  if isFull st then (false, st)
  else (true, { st with file := some (writeLines (readLines st ++ [message])) })

/-- LocalStorage::getAllReadings — the stored lines; the state is returned
unchanged because reading mutates nothing. -/
def getAllReadings (st : LocalStorage) : List (List Char) × LocalStorage :=
  (readLines st, st)

/-- LocalStorage::clearReadings — `SPIFFS.remove(STORAGE_FILE)`: succeeds iff
the file existed; afterwards the file is gone either way. -/
def clearReadings (st : LocalStorage) : Bool × LocalStorage :=
  (st.file.isSome, { st with file := none })

/-- Power-loss model of a mutating rewrite: SPIFFS `open(..., "w")` truncates
the file, then bytes are appended sequentially, so a crash during
LocalStorage::storeReading leaves on disk an arbitrary prefix (length `k`) of
the intended new content. -/
def storeReadingCrash (st : LocalStorage) (message : List Char) (k : Nat) : LocalStorage :=
  if isFull st then st
  else { st with file := some ((writeLines (readLines st ++ [message])).take k) }

/-- A stored record in canonical line form: nonempty, no newline, and no
leading or trailing whitespace (fixed by `trim`). Lines that
`readLines` itself produces always have this shape. -/
def cleanLine (l : List Char) : Prop :=
  l ≠ [] ∧ l.takeWhile (· ≠ '\n') = l ∧ l.dropWhile isWS = l
    ∧ l.reverse.dropWhile isWS = l.reverse

instance (l : List Char) : Decidable (cleanLine l) := by
  unfold cleanLine; infer_instance

/-! ## MQTTClientManager (`mqtt_client.cpp`). Publish and connect outcomes
are oracles: `pubOk i` is the broker's acknowledgement of the try at loop
index `i`. Reconnection attempts inside the loop ignore their own result and
change nothing observable, so they are not part of the trace. -/

/-- MQTTClientManager::getBackoffDelay — `RETRY_DELAY_BASE_MS * (1 << retryCount)`. -/
def getBackoffDelay (retryCount : Nat) : Nat := RETRY_DELAY_BASE_MS * 2 ^ retryCount

/-- Observable outcome of one publish call: the returned flag, the number of
delivery tries made, the backoff delays waited in order, and the final
`lastRetryCount` member. -/
structure RetryResult where
  ok : Bool
  tries : Nat
  delays : List Nat
  lastRetryCount : Nat
deriving Repr, DecidableEq

/-- Loop body of MQTTClientManager::publishWithRetry from iteration
`attempt`: on a retry iteration record `lastRetryCount` and wait the backoff
delay, then try to publish; stop on acknowledgement or when `attempt` reaches
`maxRetries`. -/
def retryLoop (pubOk : Nat → Bool) (maxRetries attempt lastRC : Nat)
    (delays : List Nat) : RetryResult :=
  let lastRC := if 0 < attempt then attempt else lastRC
  let delays := if 0 < attempt then delays ++ [getBackoffDelay attempt] else delays
  if pubOk attempt then ⟨true, attempt + 1, delays, lastRC⟩
  else if h : attempt < maxRetries then retryLoop pubOk maxRetries (attempt + 1) lastRC delays
  else ⟨false, attempt + 1, delays, lastRC⟩
termination_by maxRetries - attempt
decreasing_by omega

/-- MQTTClientManager::publishWithRetry — reset `lastRetryCount`, then run the
attempt loop from 0. -/
def publishWithRetry (pubOk : Nat → Bool) (maxRetries : Nat) : RetryResult :=
  retryLoop pubOk maxRetries 0 0 []

/-- MQTTClientManager::publish — when not connected, one `connect()` attempt
gates the call: its failure returns `false` with no delivery try and leaves
`lastRetryCount` at its previous value. Otherwise `publishWithRetry` runs
with MAX_RETRIES. -/
def publish (connected connectOk : Bool) (pubOk : Nat → Bool) (prevLastRC : Nat) : RetryResult :=
  if ¬connected ∧ ¬connectOk then ⟨false, 0, [], prevLastRC⟩
  else publishWithRetry pubOk MAX_RETRIES

/-! ## SensorManager (`sensor_manager.cpp`). Raw hardware responses are
inputs: the soil-moisture ADC sample, the DS18B20 reading (the library
yields DEVICE_DISCONNECTED_C = -127 on error), and the DHT22 readings
(`none` models NaN). -/

/-- Value the DallasTemperature library returns for a disconnected
DS18B20. -/
def DEVICE_DISCONNECTED_C : ℚ := -127

/-- Arduino `constrain` macro. -/
def constrain (x lo hi : ℚ) : ℚ := if x < lo then lo else if x > hi then hi else x

/-- SensorManager::readSoilMoisture — linear calibration of the raw ADC
sample between the wet and dry endpoints, constrained to 0..100. -/
def readSoilMoisture (rawValue : Int) : ℚ :=
  constrain (100 - (rawValue - SOIL_MOISTURE_WET : ℚ) / ((SOIL_MOISTURE_DRY : ℚ) - (SOIL_MOISTURE_WET : ℚ)) * 100) 0 100

/-- SensorManager::readSoilTemperature — -999 when the bus is uninitialized
or the sensor reports DEVICE_DISCONNECTED_C. -/
def readSoilTemperature (ds18b20Initialized : Bool) (temp : ℚ) : ℚ :=
  if ¬ds18b20Initialized then -999
  else if temp = DEVICE_DISCONNECTED_C then -999
  else temp

/-- SensorManager::readAirTemperature — -999 when the DHT22 is uninitialized
or returns NaN (`none`). -/
def readAirTemperature (dht22Initialized : Bool) (temp : Option ℚ) : ℚ :=
  if ¬dht22Initialized then -999
  else match temp with
    | none => -999
    | some t => t

/-- SensorManager::readHumidity — same error discipline as the air
temperature. -/
def readHumidity (dht22Initialized : Bool) (humidity : Option ℚ) : ℚ :=
  if ¬dht22Initialized then -999
  else match humidity with
    | none => -999
    | some h => h

/-- SensorManager::validateReading — reject the -999 error marker, then the
declared physical range. -/
def validateReading (value mn mx : ℚ) : Bool :=
  if value ≤ -999 then false
  else if value < mn ∨ value > mx then false
  else true

/-- Raw sensor environment of one acquisition cycle. -/
structure SensorEnv where
  soilRaw : Int
  ds18b20Initialized : Bool
  dht22Initialized : Bool
  ds18b20Temp : ℚ
  dhtTemp : Option ℚ
  dhtHumidity : Option ℚ
  timestamp : Nat

/-- SensorManager::readAllSensors — read each channel, then conjoin the four
range validations into the validity flag. -/
def readAllSensors (env : SensorEnv) : SensorReadings :=
  let sm := readSoilMoisture env.soilRaw
  let st := readSoilTemperature env.ds18b20Initialized env.ds18b20Temp
  let at_ := readAirTemperature env.dht22Initialized env.dhtTemp
  let hu := readHumidity env.dht22Initialized env.dhtHumidity
  { soilMoisture := sm, soilTemperature := st, airTemperature := at_, humidity := hu,
    timestamp := env.timestamp,
    valid := validateReading sm 0 100 && validateReading st (-10) 60
      && validateReading at_ (-10) 60 && validateReading hu 0 100 }

/-! ## Operation sequences over the offline queue -/

/-- Mutating or observing call on a LocalStorage instance. -/
inductive StorageOp where
  | store (message : List Char)
  | clear
  | drain
deriving Repr, DecidableEq

/-- State after one LocalStorage call (the returned values are projected away
here; `drain` is getAllReadings). -/
def applyOp (st : LocalStorage) (op : StorageOp) : LocalStorage :=
  match op with
  | .store m => (storeReading st m).2
  | .clear => (clearReadings st).2
  | .drain => (getAllReadings st).2

/-- State after a sequence of calls starting from an absent storage file and
capacity `C`. -/
def runOps (C : Nat) (ops : List StorageOp) : LocalStorage :=
  ops.foldl applyOp ⟨none, C⟩

/-- Correctness contract of the retry loop entered at iteration `a`: bounded
try count, backoff delays `base * 2^k` for retries `k = 1, 2, ...`, success
exactly on the earliest acknowledged try, and on failure an exhausted loop
with `lastRetryCount = maxRetries`. -/
def retryInv (pubOk : Nat → Bool) (mr a : Nat) (r : RetryResult) : Prop :=
  (a + 1 ≤ r.tries ∧ r.tries ≤ mr + 1)
  ∧ r.delays = ((List.range r.tries).drop 1).map getBackoffDelay
  ∧ (r.ok = true ↔ ∃ j, a ≤ j ∧ j ≤ mr ∧ pubOk j = true)
  ∧ (r.ok = true → pubOk (r.tries - 1) = true ∧ ∀ j, a ≤ j → j < r.tries - 1 → pubOk j = false)
  ∧ (r.ok = false → r.tries = mr + 1 ∧ r.lastRetryCount = mr
      ∧ ∀ j, a ≤ j → j ≤ mr → pubOk j = false)

/-! ## Theorems -/

/-- SensorManager::validateReading accepts exactly the values above the -999
sentinel and inside the closed range. -/
theorem validateReading_iff (v mn mx : ℚ) :
    validateReading v mn mx = true ↔ (¬ v ≤ -999 ∧ mn ≤ v ∧ v ≤ mx) := by
  unfold validateReading
  split
  · rename_i h
    simp only [Bool.false_eq_true, false_iff]
    intro hc
    exact hc.1 h
  · rename_i h
    split
    · rename_i h2
      simp only [Bool.false_eq_true, false_iff]
      rintro ⟨-, hmn, hmx⟩
      rcases h2 with h2 | h2 <;> linarith
    · rename_i h2
      push_neg at h2
      simp only [true_iff]
      exact ⟨h, h2.1, h2.2⟩

set_option maxRecDepth 4000 in
/-- C2: the scenario reading with soilMoisture 45.00, soilTemperature 22.50,
airTemperature 25.00, humidity 60.00, timestamp 1700000000, farmId "F1" and
deviceId "D1" serializes to exactly the canonical payload byte string, with
the stable key order, two fractional digits per numeric field, and the
ISO-8601 UTC timestamp. -/
theorem claim_C2 :
    createPayload ⟨45, 45 / 2, 25, 60, 1700000000, true⟩ (str "F1") (str "D1")
      = str "\x7b\"farmId\":\"F1\",\"deviceId\":\"D1\",\"timestamp\":\"2023-11-14T22:13:20Z\",\"readings\":\x7b\"soilMoisture\":\"45.00\",\"soilTemperature\":\"22.50\",\"airTemperature\":\"25.00\",\"humidity\":\"60.00\"\x7d\x7d" := by
  simp only [createPayload, formatFloat]
  have h1 : ⌊(45 : ℚ) * 100 + 1 / 2⌋ = 4500 := by norm_num
  have h2 : ⌊(45 : ℚ) / 2 * 100 + 1 / 2⌋ = 2250 := by norm_num
  have h3 : ⌊(25 : ℚ) * 100 + 1 / 2⌋ = 2500 := by norm_num
  have h4 : ⌊(60 : ℚ) * 100 + 1 / 2⌋ = 6000 := by norm_num
  rw [h1, h2, h3, h4]
  decide

/-- C6: a reading produced by SensorManager::readAllSensors has its valid
flag true exactly when every field lies in its declared physical range and
no field is at or below the -999 error sentinel. -/
theorem claim_C6 (env : SensorEnv) :
    ((readAllSensors env).valid = true) ↔
      (0 ≤ (readAllSensors env).soilMoisture ∧ (readAllSensors env).soilMoisture ≤ 100
        ∧ -10 ≤ (readAllSensors env).soilTemperature ∧ (readAllSensors env).soilTemperature ≤ 60
        ∧ -10 ≤ (readAllSensors env).airTemperature ∧ (readAllSensors env).airTemperature ≤ 60
        ∧ 0 ≤ (readAllSensors env).humidity ∧ (readAllSensors env).humidity ≤ 100
        ∧ ¬ (readAllSensors env).soilMoisture ≤ -999
        ∧ ¬ (readAllSensors env).soilTemperature ≤ -999
        ∧ ¬ (readAllSensors env).airTemperature ≤ -999
        ∧ ¬ (readAllSensors env).humidity ≤ -999) := by
  simp only [readAllSensors, Bool.and_eq_true, validateReading_iff]
  tauto

/-- C10: the computed soil-moisture percentage is clamped into [0, 100]
before being returned, it always passes its range validation, and therefore
the validity flag of a reading is decided by the other three channels
alone. -/
theorem claim_C10 :
    (∀ rawValue : Int, 0 ≤ readSoilMoisture rawValue ∧ readSoilMoisture rawValue ≤ 100
      ∧ validateReading (readSoilMoisture rawValue) 0 100 = true)
    ∧ ∀ env : SensorEnv, (readAllSensors env).valid =
        (validateReading (readAllSensors env).soilTemperature (-10) 60
          && validateReading (readAllSensors env).airTemperature (-10) 60
          && validateReading (readAllSensors env).humidity 0 100) := by
  have hb : ∀ rawValue : Int, 0 ≤ readSoilMoisture rawValue ∧ readSoilMoisture rawValue ≤ 100 := by
    intro raw
    unfold readSoilMoisture constrain
    split
    · norm_num
    · split
      · norm_num
      · rename_i h1 h2
        push_neg at h1 h2
        exact ⟨h1, h2⟩
  have hv : ∀ rawValue : Int, validateReading (readSoilMoisture rawValue) 0 100 = true := by
    intro raw
    rw [validateReading_iff]
    obtain ⟨h0, h1⟩ := hb raw
    exact ⟨by linarith, h0, h1⟩
  refine ⟨fun raw => ⟨(hb raw).1, (hb raw).2, hv raw⟩, fun env => ?_⟩
  simp only [readAllSensors, hv env.soilRaw, Bool.true_and]

/-- C7: getAllReadings returns the stored entries in stored order while
leaving the storage untouched (peek semantics, so a second drain sees the
same entries), and clearReadings empties the storage completely in one
step. -/
theorem claim_C7 (st : LocalStorage) :
    (getAllReadings st).2 = st
    ∧ (getAllReadings st).1 = readLines st
    ∧ (getAllReadings ((getAllReadings st).2)).1 = (getAllReadings st).1
    ∧ (getAllReadings ((clearReadings st).2)).1 = []
    ∧ getStoredCount ((clearReadings st).2) = 0 := by
  simp [getAllReadings, clearReadings, readLines, getStoredCount]

/-- Delay list maintained by the retry loop: appending the backoff delay of
retry `a` extends the delays of retries `1..a-1` to those of `1..a`. -/
theorem delays_extend (a : Nat) (ha : 0 < a) :
    ((List.range a).drop 1).map getBackoffDelay ++ [getBackoffDelay a]
      = ((List.range (a + 1)).drop 1).map getBackoffDelay := by
  rw [List.range_succ, List.drop_append_eq_append_drop]
  have h1 : 1 - (List.range a).length = 0 := by simp; omega
  rw [h1]
  simp

/-- Invariant of MQTTClientManager::publishWithRetry's loop, established by
downward induction over the remaining iterations. -/
theorem retryLoop_spec (pubOk : Nat → Bool) (mr : Nat) :
    ∀ (n a lastRC : Nat) (ds : List Nat), mr - a = n → a ≤ mr → lastRC = a - 1 →
      ds = ((List.range a).drop 1).map getBackoffDelay →
      retryInv pubOk mr a (retryLoop pubOk mr a lastRC ds) := by
  intro n
  induction n with
  | zero =>
    intro a lastRC ds hn ha hrc hds
    have haeq : a = mr := by omega
    subst haeq
    rw [retryLoop]
    by_cases hp : pubOk a
    · simp only [hp, if_true]
      constructor
      · constructor <;> simp
      refine ⟨?_, ?_, ?_, ?_⟩
      · by_cases h0 : 0 < a
        · simp only [h0, if_true, hds]
          exact delays_extend a h0
        · have : a = 0 := by omega
          subst this
          simp [hds]
      · simp only [true_iff]
        exact ⟨a, le_refl a, le_refl a, hp⟩
      · intro _
        constructor
        · simpa using hp
        · intro j hj1 hj2
          simp at hj2
          omega
      · intro hc
        simp at hc
    · simp only [hp, if_false, Bool.false_eq_true, lt_irrefl, dite_false]
      constructor
      · constructor <;> simp
      refine ⟨?_, ?_, ?_, ?_⟩
      · by_cases h0 : 0 < a
        · simp only [h0, if_true, hds]
          exact delays_extend a h0
        · have : a = 0 := by omega
          subst this
          simp [hds]
      · simp only [Bool.false_eq_true, false_iff]
        rintro ⟨j, hj1, hj2, hj3⟩
        have : j = a := by omega
        subst this
        exact hp (by simpa using hj3)
      · intro hc
        simp at hc
      · intro _
        refine ⟨rfl, ?_, ?_⟩
        · by_cases h0 : 0 < a
          · simp [h0]
          · have : a = 0 := by omega
            subst this
            simpa using hrc
        · intro j hj1 hj2
          have : j = a := by omega
          subst this
          simpa using hp
  | succ k ih =>
    intro a lastRC ds hn ha hrc hds
    have halt : a < mr := by omega
    rw [retryLoop]
    by_cases hp : pubOk a
    · simp only [hp, if_true]
      constructor
      · constructor <;> simp; omega
      refine ⟨?_, ?_, ?_, ?_⟩
      · by_cases h0 : 0 < a
        · simp only [h0, if_true, hds]
          exact delays_extend a h0
        · have : a = 0 := by omega
          subst this
          simp [hds]
      · simp only [true_iff]
        exact ⟨a, le_refl a, le_of_lt halt, hp⟩
      · intro _
        constructor
        · simpa using hp
        · intro j hj1 hj2
          simp at hj2
          omega
      · intro hc
        simp at hc
    · simp only [hp, if_false, Bool.false_eq_true, halt, dite_true]
      have hds1 : (if 0 < a then ds ++ [getBackoffDelay a] else ds)
          = ((List.range (a + 1)).drop 1).map getBackoffDelay := by
        by_cases h0 : 0 < a
        · simp only [h0, if_true, hds]
          exact delays_extend a h0
        · have : a = 0 := by omega
          subst this
          simp [hds]
      have hrc1 : (if 0 < a then a else lastRC) = (a + 1) - 1 := by
        by_cases h0 : 0 < a
        · simp [h0]
        · have : a = 0 := by omega
          subst this
          simpa using hrc
      have hrec := ih (a + 1) (if 0 < a then a else lastRC)
        (if 0 < a then ds ++ [getBackoffDelay a] else ds)
        (by omega) (by omega) hrc1 hds1
      obtain ⟨⟨hb1, hb2⟩, hdel, hiff, hsucc, hfail⟩ := hrec
      refine ⟨⟨by omega, hb2⟩, hdel, ?_, ?_, ?_⟩
      · rw [hiff]
        constructor
        · rintro ⟨j, hj1, hj2, hj3⟩
          exact ⟨j, by omega, hj2, hj3⟩
        · rintro ⟨j, hj1, hj2, hj3⟩
          refine ⟨j, ?_, hj2, hj3⟩
          rcases Nat.eq_or_lt_of_le hj1 with h | h
          · exfalso
            subst h
            exact hp (by simpa using hj3)
          · omega
      · intro hok
        obtain ⟨hfst, hmin⟩ := hsucc hok
        refine ⟨hfst, fun j hj1 hj2 => ?_⟩
        rcases Nat.eq_or_lt_of_le hj1 with h | h
        · subst h
          simpa using hp
        · exact hmin j (by omega) hj2
      · intro hok
        obtain ⟨ht, hl, hall⟩ := hfail hok
        refine ⟨ht, hl, fun j hj1 hj2 => ?_⟩
        rcases Nat.eq_or_lt_of_le hj1 with h | h
        · subst h
          simpa using hp
        · exact hall j (by omega) hj2

/-- C4: a publish call makes at most MAX_RETRIES + 1 delivery tries, and the
backoff delay waited before retry attempt k (k = 1 for the first retry) is
RETRY_DELAY_BASE_MS * 2^k. -/
theorem claim_C4 (connected connectOk : Bool) (pubOk : Nat → Bool) (prevRC : Nat) :
    (publish connected connectOk pubOk prevRC).tries ≤ MAX_RETRIES + 1
    ∧ (publish connected connectOk pubOk prevRC).delays
        = ((List.range (publish connected connectOk pubOk prevRC).tries).drop 1).map
            (fun k => RETRY_DELAY_BASE_MS * 2 ^ k) := by
  unfold publish
  split
  · simp
  · unfold publishWithRetry
    have h := retryLoop_spec pubOk MAX_RETRIES MAX_RETRIES 0 0 []
      (by omega) (by omega) rfl (by simp)
    obtain ⟨⟨_, hhi⟩, hdel, -⟩ := h
    refine ⟨hhi, ?_⟩
    rw [hdel]
    simp [getBackoffDelay]

/-- C5 as stated is false: when the client is not connected and the single
gating connect() fails, publish returns failure immediately with zero
delivery tries — not after exhausting MAX_RETRIES + 1 tries — and
lastRetryCount keeps its stale previous value instead of MAX_RETRIES. -/
theorem claim_C5_counterexample :
    (publish false false (fun _ => true) 7).ok = false
    ∧ (publish false false (fun _ => true) 7).tries = 0
    ∧ (publish false false (fun _ => true) 7).lastRetryCount ≠ MAX_RETRIES := by
  decide

/-- C5 amended: provided the delivery loop is reached (already connected, or
the gating connect() succeeds), publish succeeds exactly when some try is
acknowledged, it stops at the earliest acknowledged try, and it fails only
after all MAX_RETRIES + 1 tries, with lastRetryCount = MAX_RETRIES. -/
theorem claim_C5_amended (connected connectOk : Bool) (pubOk : Nat → Bool) (prevRC : Nat)
    (hconn : connected = true ∨ connectOk = true) :
    ((publish connected connectOk pubOk prevRC).ok = true
        ↔ ∃ j, j ≤ MAX_RETRIES ∧ pubOk j = true)
    ∧ ((publish connected connectOk pubOk prevRC).ok = true →
        pubOk ((publish connected connectOk pubOk prevRC).tries - 1) = true
        ∧ ∀ j < (publish connected connectOk pubOk prevRC).tries - 1, pubOk j = false)
    ∧ ((publish connected connectOk pubOk prevRC).ok = false →
        (publish connected connectOk pubOk prevRC).tries = MAX_RETRIES + 1
        ∧ (publish connected connectOk pubOk prevRC).lastRetryCount = MAX_RETRIES) := by
  have hcond : ¬(¬connected ∧ ¬connectOk) := by
    rcases hconn with h | h <;> simp [h]
  unfold publish
  rw [if_neg hcond]
  unfold publishWithRetry
  have h := retryLoop_spec pubOk MAX_RETRIES MAX_RETRIES 0 0 []
    (by omega) (by omega) rfl (by simp)
  obtain ⟨⟨-, -⟩, -, hiff, hsucc, hfail⟩ := h
  refine ⟨?_, ?_, ?_⟩
  · rw [hiff]
    constructor
    · rintro ⟨j, -, hj2, hj3⟩
      exact ⟨j, hj2, hj3⟩
    · rintro ⟨j, hj2, hj3⟩
      exact ⟨j, Nat.zero_le j, hj2, hj3⟩
  · intro hok
    obtain ⟨h1, h2⟩ := hsucc hok
    exact ⟨h1, fun j hj => h2 j (Nat.zero_le j) hj⟩
  · intro hok
    obtain ⟨h1, h2, -⟩ := hfail hok
    exact ⟨h1, h2⟩

/-- Concrete instantiation of the amended C5 theorem: connected, the broker
acknowledges only try index 2. -/
theorem claim_C5_amended_witness :
    ((publish true true (fun i => decide (i = 2)) 0).ok = true
        ↔ ∃ j, j ≤ MAX_RETRIES ∧ decide (j = 2) = true)
    ∧ ((publish true true (fun i => decide (i = 2)) 0).ok = true →
        decide ((publish true true (fun i => decide (i = 2)) 0).tries - 1 = 2) = true
        ∧ ∀ j < (publish true true (fun i => decide (i = 2)) 0).tries - 1,
            decide (j = 2) = false)
    ∧ ((publish true true (fun i => decide (i = 2)) 0).ok = false →
        (publish true true (fun i => decide (i = 2)) 0).tries = MAX_RETRIES + 1
        ∧ (publish true true (fun i => decide (i = 2)) 0).lastRetryCount = MAX_RETRIES) :=
  claim_C5_amended true true (fun i => decide (i = 2)) 0 (Or.inl rfl)

/-! ### Line-level lemmas for the offline queue -/

/-- A takeWhile over an append whose left part satisfies the predicate
throughout. -/
theorem takeWhile_append_all (p : Char → Bool) (l r : List Char) (h : ∀ x ∈ l, p x) :
    (l ++ r).takeWhile p = l ++ r.takeWhile p := by
  induction l with
  | nil => simp
  | cons a t ih =>
    have ha : p a = true := h a (List.mem_cons_self a t)
    simp [List.takeWhile_cons, ha, ih (fun x hx => h x (List.mem_cons_of_mem a hx))]

/-- A dropWhile over an append whose left part satisfies the predicate
throughout. -/
theorem dropWhile_append_all (p : Char → Bool) (l r : List Char) (h : ∀ x ∈ l, p x) :
    (l ++ r).dropWhile p = r.dropWhile p := by
  induction l with
  | nil => simp
  | cons a t ih =>
    have ha : p a = true := h a (List.mem_cons_self a t)
    simp [List.dropWhile_cons, ha, ih (fun x hx => h x (List.mem_cons_of_mem a hx))]

/-- A list fixed by dropWhile has a head that fails the predicate. -/
theorem dropWhile_fix_head (p : Char → Bool) (a : Char) (t : List Char)
    (h : (a :: t).dropWhile p = a :: t) : p a = false := by
  by_cases hp : p a
  · exfalso
    rw [List.dropWhile_cons, if_pos hp] at h
    have h2 : (t.dropWhile p).length ≤ t.length := (List.dropWhile_sublist _).length_le
    have h3 := congrArg List.length h
    simp at h3
    omega
  · cases hq : p a
    · rfl
    · exact absurd hq hp

/-- dropWhile over an appended singleton, split on whether the whole left
part is consumed. -/
theorem dropWhile_append_singleton (p : Char → Bool) (l : List Char) (a : Char) :
    (l ++ [a]).dropWhile p
      = if l.dropWhile p = [] then [a].dropWhile p else l.dropWhile p ++ [a] := by
  induction l with
  | nil => simp
  | cons b t ih =>
    by_cases hb : p b
    · simpa [List.dropWhile_cons, hb] using ih
    · have hb' : p b = false := by
        cases hq : p b
        · rfl
        · exact absurd hq hb
      simp [List.dropWhile_cons, hb']

/-- Removing a maximal suffix cannot expose a new head: if the head fails the
predicate, the rdrop of the list still starts with it (or is everything). -/
theorem rdrop_keep_head (p : Char → Bool) (a : Char) (t : List Char) (ha : p a = false) :
    (((a :: t).reverse.dropWhile p).reverse).dropWhile p
      = ((a :: t).reverse.dropWhile p).reverse := by
  rw [show (a :: t).reverse = t.reverse ++ [a] by simp]
  rw [dropWhile_append_singleton]
  by_cases hz : t.reverse.dropWhile p = []
  · simp [hz, List.dropWhile, ha]
  · rw [if_neg hz, List.reverse_append]
    simp [List.dropWhile_cons, ha]

/-- Output of trimChars has no leading whitespace. -/
theorem trimChars_drop_fixed (l : List Char) :
    (trimChars l).dropWhile isWS = trimChars l := by
  unfold trimChars
  cases hc : l.dropWhile isWS with
  | nil => simp
  | cons a t =>
    have ha : isWS a = false := by
      apply dropWhile_fix_head isWS a t
      rw [← hc, List.dropWhile_idempotent]
    exact rdrop_keep_head isWS a t ha

/-- Output of trimChars has no trailing whitespace. -/
theorem trimChars_rdrop_fixed (l : List Char) :
    (trimChars l).reverse.dropWhile isWS = (trimChars l).reverse := by
  unfold trimChars
  rw [List.reverse_reverse]
  exact List.dropWhile_idempotent _ _

/-- Characters of trimChars output come from the input. -/
theorem trimChars_subset (l : List Char) (c : Char) (hc : c ∈ trimChars l) : c ∈ l := by
  unfold trimChars at hc
  rw [List.mem_reverse] at hc
  have h1 := (List.dropWhile_sublist _).subset hc
  rw [List.mem_reverse] at h1
  exact (List.dropWhile_sublist _).subset h1

/-- A clean line is nonempty with a non-whitespace head. -/
theorem cleanLine_head (l : List Char) (h : cleanLine l) :
    ∃ a t, l = a :: t ∧ isWS a = false := by
  obtain ⟨hne, -, hdrop, -⟩ := h
  cases l with
  | nil => exact absurd rfl hne
  | cons a t => exact ⟨a, t, rfl, dropWhile_fix_head _ a t hdrop⟩

/-- Appending the carriage return `println` writes, then trimming, restores a
clean line. -/
theorem trimChars_append_cr (l : List Char) (h : cleanLine l) :
    trimChars (l ++ ['\r']) = l := by
  obtain ⟨a, t, rfl, ha⟩ := cleanLine_head l h
  obtain ⟨-, -, -, hrev⟩ := h
  unfold trimChars
  have hd : ((a :: t) ++ ['\r']).dropWhile isWS = (a :: t) ++ ['\r'] := by
    simp [List.dropWhile_cons, ha]
  rw [hd]
  have hr : ((a :: t) ++ ['\r']).reverse = '\r' :: (a :: t).reverse := by simp
  have hcr : isWS '\r' = true := by decide
  rw [hr, List.dropWhile_cons, hcr, if_pos rfl, hrev, List.reverse_reverse]

/-- Unfolding equation of parseLines at the empty file. -/
theorem parseLines_nil : parseLines [] = [] := rfl

/-- Characterization of the character-at-a-time reading loop in terms of the
chunk before the next newline. -/
theorem parseLinesAux_eq (cs : List Char) : ∀ acc : List Char,
    parseLinesAux acc cs =
      if trimChars (acc.reverse ++ cs.takeWhile (· ≠ '\n')) = [] then
        (if (cs.dropWhile (· ≠ '\n')) = [] then []
         else parseLinesAux [] ((cs.dropWhile (· ≠ '\n')).drop 1))
      else
        (if (cs.dropWhile (· ≠ '\n')) = [] then
          [trimChars (acc.reverse ++ cs.takeWhile (· ≠ '\n'))]
         else trimChars (acc.reverse ++ cs.takeWhile (· ≠ '\n'))
            :: parseLinesAux [] ((cs.dropWhile (· ≠ '\n')).drop 1)) := by
  induction cs with
  | nil =>
    intro acc
    simp [parseLinesAux]
  | cons c t ih =>
    intro acc
    by_cases hc : c = '\n'
    · subst hc
      have h1 : ('\n' :: t).takeWhile (· ≠ '\n') = [] := by
        simp [List.takeWhile_cons]
      have h2 : ('\n' :: t).dropWhile (· ≠ '\n') = '\n' :: t := by
        simp [List.dropWhile_cons]
      rw [h1, h2]
      simp [parseLinesAux]
    · have h1 : (c :: t).takeWhile (· ≠ '\n') = c :: t.takeWhile (· ≠ '\n') := by
        simp [List.takeWhile_cons, hc]
      have h2 : (c :: t).dropWhile (· ≠ '\n') = t.dropWhile (· ≠ '\n') := by
        simp [List.dropWhile_cons, hc]
      rw [h1, h2]
      have h3 := ih (c :: acc)
      simp only [List.reverse_cons] at h3
      rw [show parseLinesAux acc (c :: t) = parseLinesAux (c :: acc) t by
        simp [parseLinesAux, hc]]
      rw [h3]
      simp [List.append_assoc]

/-- Unfolding equation of parseLines at nonempty content. -/
theorem parseLines_cons (cs : List Char) (hne : cs ≠ []) :
    parseLines cs = (if trimChars (cs.takeWhile (· ≠ '\n')) = []
      then parseLines ((cs.dropWhile (· ≠ '\n')).drop 1)
      else trimChars (cs.takeWhile (· ≠ '\n')) :: parseLines ((cs.dropWhile (· ≠ '\n')).drop 1)) := by
  have h := parseLinesAux_eq cs []
  simp only [List.reverse_nil, List.nil_append] at h
  unfold parseLines
  rw [h]
  by_cases hd : cs.dropWhile (· ≠ '\n') = []
  · rw [hd]
    simp [parseLinesAux, trimChars]
  · simp only [if_neg hd]

/-- Every chunk the reading loop emits is clean, provided the accumulator
holds no newline. -/
theorem parseLinesAux_clean (cs : List Char) : ∀ acc, (∀ c ∈ acc, c ≠ '\n') →
    ∀ l ∈ parseLinesAux acc cs, cleanLine l := by
  induction cs with
  | nil =>
    intro acc hacc l hl
    simp only [parseLinesAux] at hl
    split at hl
    · simp at hl
    · rename_i ht
      rw [List.mem_singleton] at hl
      subst hl
      refine ⟨ht, ?_, trimChars_drop_fixed _, trimChars_rdrop_fixed _⟩
      rw [List.takeWhile_eq_self_iff]
      intro c hc
      have hmem := trimChars_subset _ c hc
      rw [List.mem_reverse] at hmem
      exact decide_eq_true (hacc c hmem)
  | cons c t ih =>
    intro acc hacc l hl
    simp only [parseLinesAux] at hl
    split at hl
    · split at hl
      · exact ih [] (by simp) l hl
      · rename_i ht
        rcases List.mem_cons.mp hl with h | h
        · subst h
          refine ⟨ht, ?_, trimChars_drop_fixed _, trimChars_rdrop_fixed _⟩
          rw [List.takeWhile_eq_self_iff]
          intro d hd
          have hmem := trimChars_subset _ d hd
          rw [List.mem_reverse] at hmem
          exact decide_eq_true (hacc d hmem)
        · exact ih [] (by simp) l h
    · rename_i hc
      refine ih (c :: acc) ?_ l hl
      intro d hd
      rcases List.mem_cons.mp hd with h | h
      · subst h
        exact hc
      · exact hacc d h

/-- Every line parseLines produces is clean: nonempty, newline-free, and
already trimmed. -/
theorem parseLines_clean (cs : List Char) : ∀ l ∈ parseLines cs, cleanLine l :=
  parseLinesAux_clean cs [] (by simp)

/-- Unfolding equation of writeLines at a cons. -/
theorem writeLines_cons (l : List Char) (ls : List (List Char)) :
    writeLines (l :: ls) = l ++ '\r' :: '\n' :: writeLines ls := by
  simp [writeLines]

/-- Round trip of the storage file: parsing back a file written from clean
lines recovers exactly those lines. -/
theorem parseLines_writeLines (ls : List (List Char)) (h : ∀ l ∈ ls, cleanLine l) :
    parseLines (writeLines ls) = ls := by
  induction ls with
  | nil => simp [writeLines, parseLines_nil]
  | cons l t ih =>
    have hcl := h l (List.mem_cons_self l t)
    have hct : ∀ x ∈ t, cleanLine x := fun x hx => h x (List.mem_cons_of_mem l hx)
    have hln : ∀ c ∈ l, decide (c ≠ '\n') = true := by
      intro c hc
      have h1 : c ∈ l.takeWhile (· ≠ '\n') := by
        rw [hcl.2.1]
        exact hc
      exact List.mem_takeWhile_imp (l := l) h1
    rw [writeLines_cons]
    have hcs : l ++ '\r' :: '\n' :: writeLines t ≠ [] := by
      cases l <;> simp
    rw [parseLines_cons _ hcs]
    have htake : (l ++ '\r' :: '\n' :: writeLines t).takeWhile (· ≠ '\n') = l ++ ['\r'] := by
      rw [takeWhile_append_all _ _ _ hln]
      simp [List.takeWhile_cons]
    have hdrop : ((l ++ '\r' :: '\n' :: writeLines t).dropWhile (· ≠ '\n')).drop 1
        = writeLines t := by
      rw [dropWhile_append_all _ _ _ hln]
      simp [List.dropWhile_cons]
    rw [htake, hdrop, trimChars_append_cr l hcl, if_neg hcl.1, ih hct]

/-- Every entry currently stored is a clean line. -/
theorem readLines_clean (st : LocalStorage) : ∀ l ∈ readLines st, cleanLine l := by
  unfold readLines
  cases st.file with
  | none => simp
  | some cs => exact parseLines_clean cs

/-- Effect of a non-full storeReading of a clean message: the entry is
appended at the tail and everything already stored is preserved. -/
theorem readLines_store (st : LocalStorage) (m : List Char) (hm : cleanLine m)
    (hnf : isFull st = false) :
    (storeReading st m).1 = true
      ∧ readLines (storeReading st m).2 = readLines st ++ [m]
      ∧ (storeReading st m).2.maxReadings = st.maxReadings := by
  unfold storeReading
  rw [hnf]
  simp only [Bool.false_eq_true, if_false]
  refine ⟨trivial, ?_, trivial⟩
  show parseLines (writeLines (readLines st ++ [m])) = readLines st ++ [m]
  apply parseLines_writeLines
  intro l hl
  rcases List.mem_append.mp hl with h | h
  · exact readLines_clean st l h
  · rw [List.mem_singleton.mp h]
    exact hm

/-- A full store rejects the message and leaves the state untouched. -/
theorem storeReading_full (st : LocalStorage) (m : List Char) (hf : isFull st = true) :
    storeReading st m = (false, st) := by
  unfold storeReading
  rw [hf]
  simp

/-- C8 as stated is false: the empty message is newline-free and accepted
(storeReading returns true on an empty queue), yet it is not stored — a
subsequent getAllReadings returns the previous contents without it. -/
theorem claim_C8_counterexample :
    (storeReading LocalStorage.init []).1 = true
    ∧ (getAllReadings (storeReading LocalStorage.init []).2).1 = []
    ∧ (getAllReadings (storeReading LocalStorage.init []).2).1 ≠ [([] : List Char)] := by
  decide

/-- C8 amended: a message that is nonempty, newline-free, and free of leading
and trailing whitespace (so that the line-oriented file format preserves it)
is stored verbatim: after an accepted storeReading, getAllReadings returns
the previous contents followed by that exact byte string. -/
theorem claim_C8_amended (st : LocalStorage) (m : List Char) (hm : cleanLine m)
    (hok : (storeReading st m).1 = true) :
    (getAllReadings (storeReading st m).2).1 = (getAllReadings st).1 ++ [m] := by
  have hnf : isFull st = false := by
    cases hq : isFull st
    · rfl
    · rw [storeReading_full st m hq] at hok
      simp at hok
  exact (readLines_store st m hm hnf).2.1

/-- Concrete instantiation of the amended C8 theorem: storing the message
"aa" into an empty queue and draining returns exactly ["aa"]. -/
theorem claim_C8_amended_witness :
    (getAllReadings (storeReading LocalStorage.init (str "aa")).2).1
      = (getAllReadings LocalStorage.init).1 ++ [str "aa"] :=
  claim_C8_amended LocalStorage.init (str "aa") (by decide) (by decide)

/-- A storage is not full exactly when its entry count is below capacity. -/
theorem isFull_false_iff (st : LocalStorage) :
    isFull st = false ↔ getStoredCount st < st.maxReadings := by
  simp [isFull]

/-- Effect of a run of enqueues of clean messages: entries are appended in
order up to the remaining capacity, the rest are dropped, and the capacity
field is untouched. -/
theorem foldStores (msgs : List (List Char)) : ∀ st : LocalStorage,
    (∀ m ∈ msgs, cleanLine m) →
    readLines ((msgs.map StorageOp.store).foldl applyOp st)
        = readLines st ++ msgs.take (st.maxReadings - getStoredCount st)
    ∧ ((msgs.map StorageOp.store).foldl applyOp st).maxReadings = st.maxReadings := by
  induction msgs with
  | nil =>
    intro st h
    simp
  | cons m t ih =>
    intro st h
    have hm := h m (List.mem_cons_self m t)
    have ht : ∀ x ∈ t, cleanLine x := fun x hx => h x (List.mem_cons_of_mem m hx)
    simp only [List.map_cons, List.foldl_cons]
    cases hq : isFull st
    · obtain ⟨-, hread, hmax⟩ := readLines_store st m hm hq
      have hst : applyOp st (StorageOp.store m) = (storeReading st m).2 := rfl
      rw [hst]
      obtain ⟨ih1, ih2⟩ := ih (storeReading st m).2 ht
      have hcount : getStoredCount (storeReading st m).2 = getStoredCount st + 1 := by
        unfold getStoredCount
        rw [hread]
        simp
      have hlt := (isFull_false_iff st).mp hq
      constructor
      · rw [ih1, hread, hmax, hcount]
        have htake : st.maxReadings - getStoredCount st
            = (st.maxReadings - (getStoredCount st + 1)) + 1 := by omega
        rw [htake, List.take_succ_cons]
        simp [List.append_assoc]
      · rw [ih2, hmax]
    · rw [show applyOp st (StorageOp.store m) = st by
        simp [applyOp, storeReading_full st m hq]]
      obtain ⟨ih1, ih2⟩ := ih st ht
      have hge : st.maxReadings ≤ getStoredCount st := by
        have := (isFull_false_iff st).not
        simp only [Bool.not_eq_false] at this
        have h2 := this.mp (by simp [hq])
        omega
      have h0 : st.maxReadings - getStoredCount st = 0 := by omega
      exact ⟨by rw [ih1, h0]; simp, ih2⟩

/-- The entry count never exceeds capacity along any run of calls whose
stored messages are clean. -/
theorem count_bound (ops : List StorageOp) : ∀ st : LocalStorage,
    (∀ m, StorageOp.store m ∈ ops → cleanLine m) →
    getStoredCount st ≤ st.maxReadings →
    getStoredCount (ops.foldl applyOp st) ≤ (ops.foldl applyOp st).maxReadings
    ∧ (ops.foldl applyOp st).maxReadings = st.maxReadings := by
  induction ops with
  | nil =>
    intro st h hle
    exact ⟨hle, rfl⟩
  | cons op t ih =>
    intro st h hle
    simp only [List.foldl_cons]
    have hth : ∀ m, StorageOp.store m ∈ t → cleanLine m :=
      fun m hm => h m (List.mem_cons_of_mem _ hm)
    cases op with
    | drain =>
      exact ih st hth hle
    | clear =>
      have hstep := ih { st with file := none } hth (by simp [getStoredCount, readLines])
      simpa [applyOp, clearReadings] using hstep
    | store m =>
      have hm : cleanLine m := h m (List.mem_cons_self _ _)
      cases hq : isFull st
      · obtain ⟨-, hread, hmax⟩ := readLines_store st m hm hq
        have hlt := (isFull_false_iff st).mp hq
        have hcount : getStoredCount (storeReading st m).2 = getStoredCount st + 1 := by
          unfold getStoredCount
          rw [hread]
          simp
        have hstep := ih (storeReading st m).2 hth (by rw [hcount, hmax]; omega)
        rw [hmax] at hstep
        exact hstep
      · have hfix : applyOp st (StorageOp.store m) = st := by
          simp [applyOp, storeReading_full st m hq]
        rw [hfix]
        exact ih st hth hle

/-- C3 as stated is false: its quantification covers all messages, and a
message containing newlines is accepted in one storeReading call yet parses
back as many entries, overshooting the capacity — here 101 entries in a
fresh queue of capacity MAX_OFFLINE_READINGS = 100. -/
theorem claim_C3_counterexample :
    (storeReading LocalStorage.init (List.intercalate ['\n'] (List.replicate 101 ['a']))).1 = true
    ∧ MAX_OFFLINE_READINGS < getStoredCount
        (storeReading LocalStorage.init (List.intercalate ['\n'] (List.replicate 101 ['a']))).2 := by
  decide

/-- C3 amended: restricted to messages in canonical record form (nonempty,
newline-free, no leading or trailing whitespace), every operation sequence
from an empty queue of capacity C keeps the entry count at most C; a full
queue rejects any further message and is left unchanged (no eviction); and
enqueueing C + 1 such messages leaves exactly the first C, in order. -/
theorem claim_C3_amended (C : Nat) (ops : List StorageOp) (msgs : List (List Char))
    (hops : ∀ m, StorageOp.store m ∈ ops → cleanLine m)
    (hmsgs : ∀ m ∈ msgs, cleanLine m)
    (hlen : msgs.length = C + 1) :
    (∀ k, getStoredCount (runOps C (ops.take k)) ≤ C)
    ∧ (∀ (st : LocalStorage) (m : List Char), isFull st = true → storeReading st m = (false, st))
    ∧ readLines (runOps C (msgs.map StorageOp.store)) = msgs.take C
    ∧ getStoredCount (runOps C (msgs.map StorageOp.store)) = C := by
  have hfold := foldStores msgs ⟨none, C⟩ hmsgs
  have hread : readLines (runOps C (msgs.map StorageOp.store)) = msgs.take C := by
    have h1 := hfold.1
    unfold runOps
    rw [h1]
    simp [getStoredCount, readLines]
  refine ⟨?_, fun st m h => storeReading_full st m h, hread, ?_⟩
  · intro k
    have hsub : ∀ m, StorageOp.store m ∈ ops.take k → cleanLine m :=
      fun m hm => hops m ((List.take_sublist k ops).subset hm)
    have h0 : getStoredCount (⟨none, C⟩ : LocalStorage)
        ≤ (⟨none, C⟩ : LocalStorage).maxReadings := by
      simp [getStoredCount, readLines]
    obtain ⟨h1, h2⟩ := count_bound (ops.take k) ⟨none, C⟩ hsub h0
    rw [h2] at h1
    exact h1
  · unfold getStoredCount
    rw [hread, List.length_take, hlen]
    omega

/-- Concrete instantiation of the amended C3 theorem: capacity 2, three clean
messages. -/
theorem claim_C3_amended_witness :
    (∀ k, getStoredCount (runOps 2 (([StorageOp.store (str "x"), StorageOp.clear,
        StorageOp.store (str "y")]).take k)) ≤ 2)
    ∧ (∀ (st : LocalStorage) (m : List Char), isFull st = true → storeReading st m = (false, st))
    ∧ readLines (runOps 2 (([str "a", str "b", str "c"]).map StorageOp.store))
        = ([str "a", str "b", str "c"]).take 2
    ∧ getStoredCount (runOps 2 (([str "a", str "b", str "c"]).map StorageOp.store)) = 2 :=
  claim_C3_amended 2 [StorageOp.store (str "x"), StorageOp.clear, StorageOp.store (str "y")]
    [str "a", str "b", str "c"]
    (by
      intro m hm
      simp only [List.mem_cons, List.not_mem_nil, or_false] at hm
      rcases hm with h | h | h
      · cases h
        decide
      · cases h
      · cases h
        decide)
    (by
      intro m hm
      simp only [List.mem_cons, List.not_mem_nil, or_false] at hm
      rcases hm with h | h | h <;> (subst h; decide))
    (by decide)

/-- C9 is a correct requirement the code does not meet: storeReading rewrites
the entire storage file in place through a truncating open, so a power loss
after the first byte of the rewrite leaves a file whose parse is neither the
pre-write state (the durable entry "aa") nor the post-write state
(["aa", "bb"]) but a corrupted singleton ["a"]. -/
theorem claim_C9_code_bug :
    readLines (storeReading LocalStorage.init (str "aa")).2 = [str "aa"]
    ∧ readLines (storeReadingCrash (storeReading LocalStorage.init (str "aa")).2 (str "bb") 1)
        = [str "a"]
    ∧ readLines (storeReadingCrash (storeReading LocalStorage.init (str "aa")).2 (str "bb") 1)
        ≠ readLines (storeReading LocalStorage.init (str "aa")).2
    ∧ readLines (storeReadingCrash (storeReading LocalStorage.init (str "aa")).2 (str "bb") 1)
        ≠ readLines (storeReading (storeReading LocalStorage.init (str "aa")).2 (str "bb")).2 := by
  decide

/-! ### Message integrity (C1) -/

/-- A SHA-256 digest is exactly 32 bytes. -/
theorem sha256_length (msg : List Nat) : (sha256 msg).length = 32 := by
  unfold sha256 be32
  simp [List.length_append]

/-- Hex rendering doubles the byte count. -/
theorem hexOfBytes_length (bs : List Nat) : (hexOfBytes bs).length = 2 * bs.length := by
  induction bs with
  | nil => rfl
  | cons b t ih =>
    unfold hexOfBytes at ih ⊢
    simp only [List.flatMap_cons, List.length_append, List.length_cons, List.length_nil,
      List.length_cons]
    simp at ih ⊢
    omega

/-- The rendered digest is exactly 64 characters. -/
theorem computeSHA256Hash_length (payload : List Char) :
    (computeSHA256Hash payload).length = 64 := by
  unfold computeSHA256Hash
  rw [hexOfBytes_length, sha256_length]

/-- The verifier accepts any message of the shape body plus appended hash
field whose digest matches the reconstructed payload. -/
theorem verifyMessage_append (Q hx : List Char) (hlen : hx.length = 64)
    (hsha : computeSHA256Hash (Q ++ ['\x7d']) = hx) :
    verifyMessage (Q ++ (str ",\"hash\":\"" ++ (hx ++ str "\"\x7d"))) = true := by
  have hml : (Q ++ (str ",\"hash\":\"" ++ (hx ++ str "\"\x7d"))).length = Q.length + 75 := by
    simp [str, hlen, List.length_append]
  simp only [verifyMessage]
  rw [hml, Nat.add_sub_cancel]
  have hnlt : ¬ Q.length + 75 < 75 := by omega
  rw [if_neg hnlt, List.drop_left, List.take_left]
  have c1 : (str ",\"hash\":\"" ++ (hx ++ str "\"\x7d")).take 9 = str ",\"hash\":\"" := by
    show (str ",\"hash\":\"" ++ (hx ++ str "\"\x7d")).take (str ",\"hash\":\"").length = _
    exact List.take_left _ _
  have c2 : (str ",\"hash\":\"" ++ (hx ++ str "\"\x7d")).drop 73 = str "\"\x7d" := by
    have hq : str ",\"hash\":\"" ++ (hx ++ str "\"\x7d")
        = (str ",\"hash\":\"" ++ hx) ++ str "\"\x7d" := by
      rw [List.append_assoc]
    rw [hq]
    have hlen2 : (str ",\"hash\":\"" ++ hx).length = 73 := by
      simp [str, hlen]
    rw [← hlen2]
    exact List.drop_left _ _
  have c3 : computeSHA256Hash (Q ++ ['\x7d'])
      = ((str ",\"hash\":\"" ++ (hx ++ str "\"\x7d")).drop 9).take 64 := by
    have h9 : (str ",\"hash\":\"" ++ (hx ++ str "\"\x7d")).drop 9 = hx ++ str "\"\x7d" := by
      show (str ",\"hash\":\"" ++ (hx ++ str "\"\x7d")).drop (str ",\"hash\":\"").length = _
      exact List.drop_left _ _
    rw [h9, ← hlen, List.take_left, hsha]
  rw [if_pos ⟨c1, c2, c3⟩]

/-- C1: the hash field of the message DataProcessor::createMessage builds is
the lowercase hex SHA-256 digest of the bare payload that createPayload
produced, computed before the hash field exists: stripping the trailing hash
field recovers the payload byte-for-byte, the 64 hex characters stored in
the field equal the digest of that payload, and an independent verifier that
reconstructs the payload and recomputes SHA-256 over it accepts the
message. -/
theorem claim_C1 (readings : SensorReadings) (farmId deviceId : List Char) :
    (createMessage readings farmId deviceId).take
        ((createMessage readings farmId deviceId).length - 75) ++ ['\x7d']
      = createPayload readings farmId deviceId
    ∧ ((createMessage readings farmId deviceId).drop
        ((createMessage readings farmId deviceId).length - 66)).take 64
      = computeSHA256Hash (createPayload readings farmId deviceId)
    ∧ verifyMessage (createMessage readings farmId deviceId) = true := by
  obtain ⟨B, hB⟩ : ∃ B, createPayload readings farmId deviceId = B ++ str "\"\x7d\x7d" :=
    ⟨_, by rw [createPayload]⟩
  have hpQ : createPayload readings farmId deviceId
      = (B ++ ['"', '\x7d']) ++ ['\x7d'] := by
    rw [hB, List.append_assoc]
    rfl
  have hlenh : (computeSHA256Hash (createPayload readings farmId deviceId)).length = 64 :=
    computeSHA256Hash_length _
  have hm : createMessage readings farmId deviceId
      = (B ++ ['"', '\x7d'])
        ++ (str ",\"hash\":\""
          ++ (computeSHA256Hash (createPayload readings farmId deviceId) ++ str "\"\x7d")) := by
    simp only [createMessage]
    rw [hpQ, List.dropLast_concat]
    simp [List.append_assoc]
  have hR : (str ",\"hash\":\""
      ++ (computeSHA256Hash (createPayload readings farmId deviceId) ++ str "\"\x7d")).length
      = 75 := by
    simp [str, hlenh, List.length_append]
  have hml : (createMessage readings farmId deviceId).length = (B ++ ['"', '\x7d']).length + 75 := by
    rw [hm, List.length_append, hR]
  refine ⟨?_, ?_, ?_⟩
  · have h75 : (createMessage readings farmId deviceId).length - 75
        = (B ++ ['"', '\x7d']).length := by omega
    rw [h75, hm, List.take_left, ← hpQ]
  · have hm2 : createMessage readings farmId deviceId
        = ((B ++ ['"', '\x7d']) ++ str ",\"hash\":\"")
          ++ (computeSHA256Hash (createPayload readings farmId deviceId) ++ str "\"\x7d") := by
      rw [hm]
      simp [List.append_assoc]
    have h66 : (createMessage readings farmId deviceId).length - 66
        = ((B ++ ['"', '\x7d']) ++ str ",\"hash\":\"").length := by
      simp only [hml]
      simp [str, List.length_append]
    rw [h66, hm2, List.drop_left, ← hlenh, List.take_left]
  · rw [hm]
    exact verifyMessage_append (B ++ ['"', '\x7d']) _ hlenh (by rw [← hpQ])

end CarbonReady
